import Mathlib

/-!
A shallow embedding of `src/main.c` of the URL_shortner repository, together
with proofs of the specified properties of its Mapping Store and Code
Generator.

Modelling conventions:
* C `uint64_t` / `unsigned long` arithmetic is `Nat` arithmetic reduced
  modulo `2 ^ 64` at every operation where overflow can occur.
* The two chained hash tables are modelled as functions from a bucket index
  to the bucket's chain (a list of records, most recently inserted first,
  matching head insertion in C).  The C code shares one heap node between
  the two tables; here a record is a value, which is observationally the
  same because the payload `(short_code, long_url)` determines all behaviour.
* C strings are Lean `String`s (byte-level behaviour coincides on the ASCII
  data the program manipulates; strings are NUL-free).
* The unbounded `for (;;)` retry loop of `generate_short_url` is modelled
  with explicit fuel; `none` means the loop has not returned within the
  given number of iterations.  Running out of the short-code space makes the
  C loop spin forever, which corresponds to `none` for every fuel value.
* `retrieve_original` takes the caller's buffer capacity `out_size`; the C
  code is meaningful (no out-of-bounds write) only for `out_size ≥ 1`, and
  the truncating `strncpy` plus forced NUL terminator yield the first
  `out_size - 1` characters of the stored URL.
-/

namespace UrlShortner

/-- C: `#define LONG_URL_MAX 1024`. -/
def LONG_URL_MAX : Nat := 1024

/-- C: `#define SHORT_CODE_LEN 7`. -/
def SHORT_CODE_LEN : Nat := 7

/-- C: `#define HASH_SIZE 1009`. -/
def HASH_SIZE : Nat := 1009

/-- C: the `BASE62` alphabet string. -/
def BASE62_STR : String := "0123456789abcdefghijklmnopqrstuvwxyzABCDEFGHIJKLMNOPQRSTUVWXYZ"

/-- The base-62 alphabet as a list of characters. -/
def BASE62 : List Char := BASE62_STR.toList

/-- C: `#define MODULUS (1099511627776ULL)`, i.e. `2 ^ 40`. -/
def MODULUS : Nat := 1099511627776

/-- C: `#define PRIME_MULTIPLIER (36779219ULL)`. -/
def PRIME_MULTIPLIER : Nat := 36779219

/-- Cardinality of `uint64_t` / 64-bit `unsigned long`: `2 ^ 64`. -/
def UINT64_CARD : Nat := 18446744073709551616

/-- C: `scramble_id`.  The multiplication is `uint64_t`, hence the inner
reduction modulo `2 ^ 64`. -/
def scramble_id (sequential_id : Nat) : Nat :=
  if sequential_id ≥ MODULUS then 0
  else sequential_id * PRIME_MULTIPLIER % UINT64_CARD % MODULUS

/-- C: `hash_str` (djb2).  `hash` is a 64-bit `unsigned long`, updated as
`hash * 33 + c` with wraparound, and finally reduced modulo `HASH_SIZE`. -/
def hash_str (s : String) : Nat :=
  (s.toList.foldl (fun h c => (h * 33 + c.toNat) % UINT64_CARD) 5381) % HASH_SIZE

/-- C: the digit-filling loop of `id_to_base62`: the list of digit characters
produced for positions `SHORT_CODE_LEN - 1` down to `0`, i.e. least
significant digit first. -/
def base62Rev : Nat → Nat → List Char
  | 0, _ => []
  | n + 1, id => BASE62.getD (id % 62) '0' :: base62Rev n (id / 62)

/-- C: `id_to_base62`, the fixed-width (7 digit) base-62 encoding, most
significant digit first. -/
def id_to_base62 (id : Nat) : String :=
  String.mk (base62Rev SHORT_CODE_LEN id).reverse

/-- C: `struct Node`, restricted to its payload.  The two intrusive chain
pointers are represented by the position of the record in the bucket lists of
the two tables. -/
structure Rec where
  short_code : String
  long_url : String
deriving DecidableEq

/-- The whole mutable state of the C program: the two bucket arrays and the
global sequence counter. -/
@[ext]
structure Store where
  short_table : Nat → List Rec
  long_table : Nat → List Rec
  global_id : Nat

/-- The initial state: both tables zeroed, `global_id = 1`. -/
def emptyStore : Store :=
  { short_table := fun _ => []
    long_table := fun _ => []
    global_id := 1 }

/-- C: `find_by_short`: scan the chain of bucket `hash_str short_code` for
the first node whose `short_code` matches exactly. -/
def find_by_short (st : Store) (short_code : String) : Option Rec :=
  (st.short_table (hash_str short_code)).find? (fun r => r.short_code == short_code)

/-- C: `find_by_long`: scan the chain of bucket `hash_str long_url` for the
first node whose `long_url` matches exactly. -/
def find_by_long (st : Store) (long_url : String) : Option Rec :=
  (st.long_table (hash_str long_url)).find? (fun r => r.long_url == long_url)

/-- Head insertion of a record into bucket `i` of a table. -/
def bucket_insert (t : Nat → List Rec) (i : Nat) (r : Rec) : Nat → List Rec :=
  fun j => if j = i then r :: t j else t j

/-- Removal of the first occurrence of a record from bucket `i` of a table
(the C code unlinks one specific node from the chain). -/
def bucket_erase (t : Nat → List Rec) (i : Nat) (r : Rec) : Nat → List Rec :=
  fun j => if j = i then (t j).erase r else t j

/-- C: `insert_mapping`: one node carrying the pair is linked at the head of
bucket `hash_str short_code` of the short table and at the head of bucket
`hash_str long_url` of the long table. -/
def insert_mapping (st : Store) (short_code long_url : String) : Store :=
  { st with
    short_table := bucket_insert st.short_table (hash_str short_code) ⟨short_code, long_url⟩
    long_table := bucket_insert st.long_table (hash_str long_url) ⟨short_code, long_url⟩ }

/-- C: `unlink_from_short_table` (the bucket scanned is `hash_str` of the
node's own `short_code`). -/
def unlink_from_short_table (t : Nat → List Rec) (node : Rec) : Nat → List Rec :=
  bucket_erase t (hash_str node.short_code) node

/-- C: `unlink_from_long_table` (the bucket scanned is `hash_str` of the
node's own `long_url`). -/
def unlink_from_long_table (t : Nat → List Rec) (node : Rec) : Nat → List Rec :=
  bucket_erase t (hash_str node.long_url) node

/-- C: `remove_by_short`: look the node up by short code; if absent return
`0` (here `false`) and leave the state untouched, otherwise unlink it from
both tables, free it, and return `1` (here `true`). -/
def remove_by_short (st : Store) (short_code : String) : Store × Bool :=
  match find_by_short st short_code with
  | none => (st, false)
  | some node =>
      ({ st with
         short_table := unlink_from_short_table st.short_table node
         long_table := unlink_from_long_table st.long_table node }, true)

/-- C: `remove_by_long`, symmetric to `remove_by_short`. -/
def remove_by_long (st : Store) (long_url : String) : Store × Bool :=
  match find_by_long st long_url with
  | none => (st, false)
  | some node =>
      ({ st with
         short_table := unlink_from_short_table st.short_table node
         long_table := unlink_from_long_table st.long_table node }, true)

/-- C: the body of the `for (;;)` retry loop of `generate_short_url`, with
explicit fuel.  Each iteration evaluates the candidate for the current
counter value, accepts it when the short table does not contain it
(inserting the mapping and incrementing the counter), and otherwise
increments the counter and retries.  `none` models not having returned
within `fuel` iterations. -/
def genLoop : Nat → Store → String → Option (Store × String)
  | 0, _, _ => none
  | fuel + 1, st, long_url =>
      match find_by_short st (id_to_base62 (scramble_id (st.global_id % MODULUS))) with
      | none =>
          some ({ insert_mapping st (id_to_base62 (scramble_id (st.global_id % MODULUS))) long_url with
                  global_id := (st.global_id + 1) % UINT64_CARD },
                id_to_base62 (scramble_id (st.global_id % MODULUS)))
      | some _ => genLoop fuel { st with global_id := (st.global_id + 1) % UINT64_CARD } long_url

/-- C: `generate_short_url`: if the long URL is already mapped, return the
existing short code (no state change); otherwise run the retry loop. -/
def generate_short_url (fuel : Nat) (st : Store) (long_url : String) :
    Option (Store × String) :=
  match find_by_long st long_url with
  | some existing => some (st, existing.short_code)
  | none => genLoop fuel st long_url

/-- The observable effect of `strncpy(out, s, n)` followed by
`out[n] = '\0'` on a buffer of capacity `n + 1`: the first `n` characters
of `s` (all of `s` if it is shorter). -/
def strncpyTrunc (s : String) (n : Nat) : String :=
  String.mk (s.toList.take n)

/-- C: `retrieve_original`: `none` models returning `0` (not found); on
success the caller's buffer receives the stored URL truncated to
`out_size - 1` characters and NUL-terminated.  Faithful for `out_size ≥ 1`
(at `out_size = 0` the C code writes out of bounds). -/
def retrieve_original (st : Store) (short_code : String) (out_size : Nat) :
    Option String :=
  match find_by_short st short_code with
  | none => none
  | some n => some (strncpyTrunc n.long_url (out_size - 1))

/-- C: `delete_short` simply forwards to `remove_by_short`. -/
def delete_short (st : Store) (short_code : String) : Store × Bool :=
  remove_by_short st short_code

/-- The validity precondition the CLI boundary enforces before calling
`generate_short_url`: non-empty and shorter than `LONG_URL_MAX`. -/
def ValidUrl (s : String) : Prop :=
  s ≠ "" ∧ s.length < LONG_URL_MAX

instance : DecidablePred ValidUrl := fun s => by
  unfold ValidUrl; infer_instance

/-- A record is live in the short index if some bucket chain contains it. -/
def memShort (st : Store) (r : Rec) : Prop :=
  ∃ i, r ∈ st.short_table i

/-- A record is live in the long index if some bucket chain contains it. -/
def memLong (st : Store) (r : Rec) : Prop :=
  ∃ i, r ∈ st.long_table i

/-- A well-formed short code: exactly 7 characters, all from the base-62
alphabet. -/
def GoodCode (s : String) : Prop :=
  s.length = SHORT_CODE_LEN ∧ ∀ c ∈ s.toList, c ∈ BASE62

/-- The candidate short code the generator derives from counter value
`g + k` (the `k`-th candidate evaluated by a loop entered at counter `g`). -/
def nthCandidate (g k : Nat) : String :=
  id_to_base62 (scramble_id ((g + k) % MODULUS))

/-- The data-structure invariant of the store:
buckets hold only records hashing to them, chains are duplicate-free, both
indexes hold exactly the same records, short codes and long URLs each
determine the record, and every stored short code is well-formed. -/
structure Inv (st : Store) : Prop where
  wf_short : ∀ i r, r ∈ st.short_table i → hash_str r.short_code = i
  wf_long : ∀ i r, r ∈ st.long_table i → hash_str r.long_url = i
  nodup_short : ∀ i, (st.short_table i).Nodup
  nodup_long : ∀ i, (st.long_table i).Nodup
  same : ∀ r, memShort st r ↔ memLong st r
  codes_inj : ∀ r1 r2, memShort st r1 → memShort st r2 →
    r1.short_code = r2.short_code → r1 = r2
  urls_inj : ∀ r1 r2, memLong st r1 → memLong st r2 →
    r1.long_url = r2.long_url → r1 = r2
  good : ∀ r, memShort st r → GoodCode r.short_code

/-- The states reachable from the initial state by the store's mutating
operations. -/
inductive Reachable : Store → Prop where
  | empty : Reachable emptyStore
  | gen (st st' : Store) (fuel : Nat) (long_url code : String) :
      Reachable st → generate_short_url fuel st long_url = some (st', code) →
      Reachable st'
  | delS (st : Store) (short_code : String) :
      Reachable st → Reachable (remove_by_short st short_code).1
  | delL (st : Store) (long_url : String) :
      Reachable st → Reachable (remove_by_long st long_url).1

/-- The multiplicative inverse of `PRIME_MULTIPLIER` modulo `MODULUS`
(witnessing that the odd multiplier is invertible modulo `2 ^ 40`). -/
def PINV : Nat := 760078484315

/-- Sample long URL used in concrete runs. -/
def urlA : String := "http://a.com"

/-- A second, distinct sample long URL. -/
def urlB : String := "http://b.com"

/-- A long URL not present in `fullStore`. -/
def urlNew : String := "http://new.example"

/-- The store component of a `generate_short_url` run (the input store if
the fuel ran out). -/
def genStore (fuel : Nat) (st : Store) (url : String) : Store :=
  match generate_short_url fuel st url with
  | some (st', _) => st'
  | none => st

/-- The short-code component of a `generate_short_url` run (`""` if the
fuel ran out). -/
def genCode (fuel : Nat) (st : Store) (url : String) : String :=
  match generate_short_url fuel st url with
  | some (_, c) => c
  | none => ""

/-- One record for every short code the generator can ever emit. -/
def allCodes : List Rec :=
  (List.range MODULUS).map (fun s => ⟨id_to_base62 (scramble_id s), urlA⟩)

/-- A store whose short index occupies the complete short-code space of the
generator (the state the spec calls exhaustion). -/
def fullStore : Store :=
  { short_table := fun _ => allCodes
    long_table := fun _ => []
    global_id := 1 }

/-- A placeholder record (used only as the default of `Option.getD`). -/
def defaultRec : Rec :=
  { short_code := ""
    long_url := "" }

/-- The store after shortening `urlA` once from the initial state. -/
def stA : Store := genStore 1 emptyStore urlA

/-- The short code produced for `urlA` from the initial state. -/
def codeA : String := genCode 1 emptyStore urlA

/-! ### Arithmetic groundwork -/

lemma MODULUS_pos : 0 < MODULUS := by decide

lemma MODULUS_dvd_UINT64 : MODULUS ∣ UINT64_CARD := ⟨16777216, by decide⟩

lemma mod64_mod40 (a : Nat) : a % UINT64_CARD % MODULUS = a % MODULUS :=
  Nat.mod_mod_of_dvd a MODULUS_dvd_UINT64

lemma MODULUS_lt_base : MODULUS < 62 ^ SHORT_CODE_LEN := by decide

lemma scramble_id_of_lt {s : Nat} (h : s < MODULUS) :
    scramble_id s = s * PRIME_MULTIPLIER % MODULUS := by
  unfold scramble_id
  rw [if_neg (by omega), mod64_mod40]

lemma scramble_id_lt (s : Nat) : scramble_id s < MODULUS := by
  unfold scramble_id
  split
  · exact MODULUS_pos
  · exact Nat.mod_lt _ MODULUS_pos

lemma coprime_mult : Nat.Coprime PRIME_MULTIPLIER MODULUS := by
  have h2 : ¬ (2 ∣ PRIME_MULTIPLIER) := by decide
  have h : Nat.Coprime PRIME_MULTIPLIER 2 :=
    (Nat.Prime.coprime_iff_not_dvd Nat.prime_two).mpr h2 |>.symm
  have : MODULUS = 2 ^ 40 := by decide
  rw [this]
  exact Nat.Coprime.pow_right 40 h

lemma pinv_mul : PINV * PRIME_MULTIPLIER % MODULUS = 1 := by decide

lemma scramble_inj {s1 s2 : Nat} (h1 : s1 < MODULUS) (h2 : s2 < MODULUS)
    (h : scramble_id s1 = scramble_id s2) : s1 = s2 := by
  rw [scramble_id_of_lt h1, scramble_id_of_lt h2] at h
  have hmod : s1 ≡ s2 [MOD MODULUS] :=
    Nat.ModEq.cancel_right_of_coprime (by exact_mod_cast coprime_mult) h
  calc s1 = s1 % MODULUS := (Nat.mod_eq_of_lt h1).symm
    _ = s2 % MODULUS := hmod
    _ = s2 := Nat.mod_eq_of_lt h2

lemma scramble_surj {t : Nat} (ht : t < MODULUS) :
    ∃ s, s < MODULUS ∧ scramble_id s = t := by
  refine ⟨t * PINV % MODULUS, Nat.mod_lt _ MODULUS_pos, ?_⟩
  rw [scramble_id_of_lt (Nat.mod_lt _ MODULUS_pos), Nat.mod_mul_mod,
    Nat.mul_assoc, Nat.mul_mod, pinv_mul, Nat.mul_one, Nat.mod_mod_of_dvd t dvd_rfl,
    Nat.mod_eq_of_lt ht]

/-! ### Base-62 encoding -/

lemma base62Rev_length (n id : Nat) : (base62Rev n id).length = n := by
  induction n generalizing id with
  | zero => rfl
  | succ n ih => simp [base62Rev, ih]

lemma base62_digit_mem : ∀ d < 62, BASE62.getD d '0' ∈ BASE62 := by decide

lemma base62_digit_inj : ∀ a < 62, ∀ b < 62,
    BASE62.getD a '0' = BASE62.getD b '0' → a = b := by decide

lemma base62Rev_mem (n id : Nat) : ∀ c ∈ base62Rev n id, c ∈ BASE62 := by
  induction n generalizing id with
  | zero => intro c hc; cases hc
  | succ n ih =>
      intro c hc
      rcases List.mem_cons.mp hc with h | h
      · subst h; exact base62_digit_mem _ (Nat.mod_lt _ (by omega))
      · exact ih _ c h

lemma base62Rev_inj : ∀ n, ∀ a < 62 ^ n, ∀ b < 62 ^ n,
    base62Rev n a = base62Rev n b → a = b := by
  intro n
  induction n with
  | zero => intro a ha b hb _; simp [Nat.pow_zero] at ha hb; omega
  | succ n ih =>
      intro a ha b hb h
      simp only [base62Rev, List.cons.injEq] at h
      have hd : a % 62 = b % 62 :=
        base62_digit_inj _ (Nat.mod_lt _ (by omega)) _ (Nat.mod_lt _ (by omega)) h.1
      have hda : a / 62 < 62 ^ n := by
        rw [Nat.div_lt_iff_lt_mul (by omega)]
        calc a < 62 ^ (n + 1) := ha
          _ = 62 ^ n * 62 := by rw [Nat.pow_succ]
      have hdb : b / 62 < 62 ^ n := by
        rw [Nat.div_lt_iff_lt_mul (by omega)]
        calc b < 62 ^ (n + 1) := hb
          _ = 62 ^ n * 62 := by rw [Nat.pow_succ]
      have ht : a / 62 = b / 62 := ih _ hda _ hdb h.2
      omega

lemma id_to_base62_inj {a b : Nat} (ha : a < 62 ^ SHORT_CODE_LEN)
    (hb : b < 62 ^ SHORT_CODE_LEN) (h : id_to_base62 a = id_to_base62 b) :
    a = b := by
  unfold id_to_base62 at h
  have hlists : (base62Rev SHORT_CODE_LEN a).reverse = (base62Rev SHORT_CODE_LEN b).reverse :=
    congrArg String.data h
  exact base62Rev_inj SHORT_CODE_LEN a ha b hb (List.reverse_injective hlists)

lemma id_to_base62_good (id : Nat) : GoodCode (id_to_base62 id) := by
  constructor
  · show (String.mk (base62Rev SHORT_CODE_LEN id).reverse).length = SHORT_CODE_LEN
    simp [String.length, base62Rev_length]
  · intro c hc
    have : c ∈ (base62Rev SHORT_CODE_LEN id).reverse := hc
    exact base62Rev_mem _ _ c (List.mem_reverse.mp this)

lemma nthCandidate_good (g k : Nat) : GoodCode (nthCandidate g k) :=
  id_to_base62_good _

lemma nthCandidate_inj {g k1 k2 : Nat}
    (h : nthCandidate g k1 = nthCandidate g k2) :
    (g + k1) % MODULUS = (g + k2) % MODULUS := by
  unfold nthCandidate at h
  have h1 : scramble_id ((g + k1) % MODULUS) = scramble_id ((g + k2) % MODULUS) :=
    id_to_base62_inj
      (lt_trans (scramble_id_lt _) MODULUS_lt_base)
      (lt_trans (scramble_id_lt _) MODULUS_lt_base) h
  exact scramble_inj (Nat.mod_lt _ MODULUS_pos) (Nat.mod_lt _ MODULUS_pos) h1

lemma nthCandidate_shift (g j : Nat) :
    nthCandidate ((g + 1) % UINT64_CARD) j = nthCandidate g (j + 1) := by
  unfold nthCandidate
  congr 2
  rw [← mod64_mod40 ((g + 1) % UINT64_CARD + j), Nat.mod_add_mod, mod64_mod40]
  congr 1
  omega

/-! ### Lookup lemmas -/

lemma find_by_short_some {st : Store} {c : String} {r : Rec}
    (h : find_by_short st c = some r) :
    r ∈ st.short_table (hash_str c) ∧ r.short_code = c := by
  unfold find_by_short at h
  refine ⟨List.mem_of_find?_eq_some h, ?_⟩
  have := List.find?_some h
  simpa using this

lemma find_by_long_some {st : Store} {u : String} {r : Rec}
    (h : find_by_long st u = some r) :
    r ∈ st.long_table (hash_str u) ∧ r.long_url = u := by
  unfold find_by_long at h
  refine ⟨List.mem_of_find?_eq_some h, ?_⟩
  have := List.find?_some h
  simpa using this

lemma find_by_short_none {st : Store} {c : String}
    (h : find_by_short st c = none) {r : Rec}
    (hr : r ∈ st.short_table (hash_str c)) : r.short_code ≠ c := by
  unfold find_by_short at h
  have := List.find?_eq_none.mp h r hr
  simpa using this

lemma find_by_long_none {st : Store} {u : String}
    (h : find_by_long st u = none) {r : Rec}
    (hr : r ∈ st.long_table (hash_str u)) : r.long_url ≠ u := by
  unfold find_by_long at h
  have := List.find?_eq_none.mp h r hr
  simpa using this

lemma memShort_find_none {st : Store} {c : String}
    (hwf : ∀ i r, r ∈ st.short_table i → hash_str r.short_code = i)
    (h : find_by_short st c = none) {r : Rec} (hr : memShort st r) :
    r.short_code ≠ c := by
  obtain ⟨i, hi⟩ := hr
  intro hc
  have hhash := hwf i r hi
  subst hhash
  rw [hc] at hi
  exact find_by_short_none h hi hc

lemma memLong_find_none {st : Store} {u : String}
    (hwf : ∀ i r, r ∈ st.long_table i → hash_str r.long_url = i)
    (h : find_by_long st u = none) {r : Rec} (hr : memLong st r) :
    r.long_url ≠ u := by
  obtain ⟨i, hi⟩ := hr
  intro hu
  have hhash := hwf i r hi
  subst hhash
  rw [hu] at hi
  exact find_by_long_none h hi hu

lemma find_by_short_of_mem {st : Store} (hInv : Inv st) {r : Rec}
    (hr : memShort st r) : find_by_short st r.short_code = some r := by
  obtain ⟨i, hi⟩ := hr
  have hhash := hInv.wf_short i r hi
  subst hhash
  unfold find_by_short
  cases hfind : (st.short_table (hash_str r.short_code)).find?
      (fun x => x.short_code == r.short_code) with
  | none =>
      exact absurd (by simp : (r.short_code == r.short_code) = true)
        (List.find?_eq_none.mp hfind r hi)
  | some a =>
      have ha := List.mem_of_find?_eq_some hfind
      have hcode : a.short_code = r.short_code := by
        have := List.find?_some hfind
        simpa using this
      have : a = r :=
        hInv.codes_inj a r ⟨_, ha⟩ ⟨_, hi⟩ hcode
      rw [this]

lemma find_by_long_of_mem {st : Store} (hInv : Inv st) {r : Rec}
    (hr : memLong st r) : find_by_long st r.long_url = some r := by
  obtain ⟨i, hi⟩ := hr
  have hhash := hInv.wf_long i r hi
  subst hhash
  unfold find_by_long
  cases hfind : (st.long_table (hash_str r.long_url)).find?
      (fun x => x.long_url == r.long_url) with
  | none =>
      exact absurd (by simp : (r.long_url == r.long_url) = true)
        (List.find?_eq_none.mp hfind r hi)
  | some a =>
      have ha := List.mem_of_find?_eq_some hfind
      have hurl : a.long_url = r.long_url := by
        have := List.find?_some hfind
        simpa using this
      have : a = r :=
        hInv.urls_inj a r ⟨_, ha⟩ ⟨_, hi⟩ hurl
      rw [this]

/-! ### Bucket update lemmas -/

lemma mem_bucket_insert {t : Nat → List Rec} {i : Nat} {x r : Rec} :
    (∃ j, r ∈ bucket_insert t i x j) ↔ r = x ∨ ∃ j, r ∈ t j := by
  constructor
  · rintro ⟨j, hj⟩
    unfold bucket_insert at hj
    by_cases h : j = i
    · rw [if_pos h] at hj
      rcases List.mem_cons.mp hj with h' | h'
      · exact Or.inl h'
      · exact Or.inr ⟨j, h'⟩
    · rw [if_neg h] at hj
      exact Or.inr ⟨j, hj⟩
  · rintro (rfl | ⟨j, hj⟩)
    · exact ⟨i, by simp [bucket_insert]⟩
    · by_cases h : j = i
      · subst h
        exact ⟨j, by simp [bucket_insert, hj]⟩
      · exact ⟨j, by simp [bucket_insert, if_neg h, hj]⟩

lemma bucket_erase_subset {t : Nat → List Rec} {i : Nat} {node : Rec} (j : Nat) :
    bucket_erase t i node j ⊆ t j := by
  unfold bucket_erase
  by_cases h : j = i
  · rw [if_pos h]; exact (List.erase_sublist _ _).subset
  · rw [if_neg h]; exact fun _ h => h

lemma bucket_erase_nodup {t : Nat → List Rec} {i : Nat} {node : Rec}
    (h : ∀ j, (t j).Nodup) (j : Nat) : (bucket_erase t i node j).Nodup := by
  unfold bucket_erase
  by_cases hj : j = i
  · rw [if_pos hj]; exact (h j).erase node
  · rw [if_neg hj]; exact h j

lemma mem_bucket_erase {t : Nat → List Rec} {f : Rec → Nat} {node r : Rec}
    (hwf : ∀ j x, x ∈ t j → f x = j) (hnodup : ∀ j, (t j).Nodup) :
    (∃ j, r ∈ bucket_erase t (f node) node j) ↔ (∃ j, r ∈ t j) ∧ r ≠ node := by
  constructor
  · rintro ⟨j, hj⟩
    unfold bucket_erase at hj
    by_cases h : j = f node
    · rw [if_pos h] at hj
      have hm := (hnodup j).mem_erase_iff.mp hj
      exact ⟨⟨j, hm.2⟩, hm.1⟩
    · rw [if_neg h] at hj
      refine ⟨⟨j, hj⟩, ?_⟩
      rintro rfl
      exact h (hwf j r hj).symm
  · rintro ⟨⟨j, hj⟩, hne⟩
    refine ⟨j, ?_⟩
    unfold bucket_erase
    by_cases h : j = f node
    · rw [if_pos h]
      exact (hnodup j).mem_erase_iff.mpr ⟨hne, hj⟩
    · rw [if_neg h]; exact hj

/-! ### Invariant preservation -/

lemma inv_empty : Inv emptyStore := by
  constructor <;>
    simp [memShort, memLong, emptyStore]

lemma inv_insert {st : Store} (hInv : Inv st) {c u : String} {g : Nat}
    (hc : find_by_short st c = none) (hu : find_by_long st u = none)
    (hgood : GoodCode c) :
    Inv { short_table := bucket_insert st.short_table (hash_str c) ⟨c, u⟩
          long_table := bucket_insert st.long_table (hash_str u) ⟨c, u⟩
          global_id := g } := by
  have hmemS : ∀ r : Rec,
      memShort { short_table := bucket_insert st.short_table (hash_str c) ⟨c, u⟩
                 long_table := bucket_insert st.long_table (hash_str u) ⟨c, u⟩
                 global_id := g } r ↔ r = ⟨c, u⟩ ∨ memShort st r :=
    fun r => mem_bucket_insert
  have hmemL : ∀ r : Rec,
      memLong { short_table := bucket_insert st.short_table (hash_str c) ⟨c, u⟩
                long_table := bucket_insert st.long_table (hash_str u) ⟨c, u⟩
                global_id := g } r ↔ r = ⟨c, u⟩ ∨ memLong st r :=
    fun r => mem_bucket_insert
  constructor
  case wf_short =>
    intro i r hr
    simp only [bucket_insert] at hr
    by_cases h : i = hash_str c
    · rw [if_pos h] at hr
      rcases List.mem_cons.mp hr with rfl | hr'
      · rw [h]
      · exact hInv.wf_short i r hr'
    · rw [if_neg h] at hr
      exact hInv.wf_short i r hr
  case wf_long =>
    intro i r hr
    simp only [bucket_insert] at hr
    by_cases h : i = hash_str u
    · rw [if_pos h] at hr
      rcases List.mem_cons.mp hr with rfl | hr'
      · rw [h]
      · exact hInv.wf_long i r hr'
    · rw [if_neg h] at hr
      exact hInv.wf_long i r hr
  case nodup_short =>
    intro i
    simp only [bucket_insert]
    by_cases h : i = hash_str c
    · rw [if_pos h, List.nodup_cons]
      refine ⟨?_, hInv.nodup_short i⟩
      intro hmem
      rw [h] at hmem
      exact find_by_short_none hc hmem rfl
    · rw [if_neg h]
      exact hInv.nodup_short i
  case nodup_long =>
    intro i
    simp only [bucket_insert]
    by_cases h : i = hash_str u
    · rw [if_pos h, List.nodup_cons]
      refine ⟨?_, hInv.nodup_long i⟩
      intro hmem
      rw [h] at hmem
      exact find_by_long_none hu hmem rfl
    · rw [if_neg h]
      exact hInv.nodup_long i
  case same =>
    intro r
    rw [hmemS r, hmemL r, hInv.same r]
  case codes_inj =>
    intro r1 r2 h1 h2 heq
    rcases (hmemS r1).mp h1 with rfl | h1'
    · rcases (hmemS r2).mp h2 with rfl | h2'
      · rfl
      · exact absurd heq.symm (memShort_find_none hInv.wf_short hc h2')
    · rcases (hmemS r2).mp h2 with rfl | h2'
      · exact absurd heq (memShort_find_none hInv.wf_short hc h1')
      · exact hInv.codes_inj r1 r2 h1' h2' heq
  case urls_inj =>
    intro r1 r2 h1 h2 heq
    rcases (hmemL r1).mp h1 with rfl | h1'
    · rcases (hmemL r2).mp h2 with rfl | h2'
      · rfl
      · exact absurd heq.symm (memLong_find_none hInv.wf_long hu h2')
    · rcases (hmemL r2).mp h2 with rfl | h2'
      · exact absurd heq (memLong_find_none hInv.wf_long hu h1')
      · exact hInv.urls_inj r1 r2 h1' h2' heq
  case good =>
    intro r hr
    rcases (hmemS r).mp hr with rfl | hr'
    · exact hgood
    · exact hInv.good r hr'

lemma inv_remove {st : Store} (hInv : Inv st) {node : Rec} (hmem : memShort st node) :
    Inv { st with
          short_table := unlink_from_short_table st.short_table node
          long_table := unlink_from_long_table st.long_table node } ∧
    (∀ r, memShort { st with
          short_table := unlink_from_short_table st.short_table node
          long_table := unlink_from_long_table st.long_table node } r ↔
        memShort st r ∧ r ≠ node) ∧
    (∀ r, memLong { st with
          short_table := unlink_from_short_table st.short_table node
          long_table := unlink_from_long_table st.long_table node } r ↔
        memLong st r ∧ r ≠ node) := by
  have hS : ∀ r, memShort { st with
      short_table := unlink_from_short_table st.short_table node
      long_table := unlink_from_long_table st.long_table node } r ↔
      memShort st r ∧ r ≠ node := by
    intro r
    show (∃ j, r ∈ bucket_erase st.short_table (hash_str node.short_code) node j) ↔ _
    exact mem_bucket_erase (f := fun x => hash_str x.short_code)
      hInv.wf_short hInv.nodup_short
  have hL : ∀ r, memLong { st with
      short_table := unlink_from_short_table st.short_table node
      long_table := unlink_from_long_table st.long_table node } r ↔
      memLong st r ∧ r ≠ node := by
    intro r
    show (∃ j, r ∈ bucket_erase st.long_table (hash_str node.long_url) node j) ↔ _
    exact mem_bucket_erase (f := fun x => hash_str x.long_url)
      hInv.wf_long hInv.nodup_long
  refine ⟨?_, hS, hL⟩
  constructor
  case wf_short =>
    intro i r hr
    have hr' : r ∈ bucket_erase st.short_table (hash_str node.short_code) node i := hr
    exact hInv.wf_short i r (bucket_erase_subset i hr')
  case wf_long =>
    intro i r hr
    have hr' : r ∈ bucket_erase st.long_table (hash_str node.long_url) node i := hr
    exact hInv.wf_long i r (bucket_erase_subset i hr')
  case nodup_short =>
    intro i
    show (bucket_erase st.short_table (hash_str node.short_code) node i).Nodup
    exact bucket_erase_nodup hInv.nodup_short i
  case nodup_long =>
    intro i
    show (bucket_erase st.long_table (hash_str node.long_url) node i).Nodup
    exact bucket_erase_nodup hInv.nodup_long i
  case same =>
    intro r
    rw [hS r, hL r, hInv.same r]
  case codes_inj =>
    intro r1 r2 h1 h2 heq
    exact hInv.codes_inj r1 r2 ((hS r1).mp h1).1 ((hS r2).mp h2).1 heq
  case urls_inj =>
    intro r1 r2 h1 h2 heq
    exact hInv.urls_inj r1 r2 ((hL r1).mp h1).1 ((hL r2).mp h2).1 heq
  case good =>
    intro r hr
    exact hInv.good r ((hS r).mp hr).1

/-! ### The generation loop -/

lemma genLoop_spec {fuel : Nat} : ∀ {st : Store} {url : String} {st' : Store} {c : String},
    genLoop fuel st url = some (st', c) →
    ∃ k, k < fuel ∧ c = nthCandidate st.global_id k ∧
      (∀ j, j < k → find_by_short st (nthCandidate st.global_id j) ≠ none) ∧
      find_by_short st c = none ∧
      st' = { short_table := bucket_insert st.short_table (hash_str c) ⟨c, url⟩
              long_table := bucket_insert st.long_table (hash_str url) ⟨c, url⟩
              global_id := (st.global_id + k + 1) % UINT64_CARD } := by
  induction fuel with
  | zero => intro st url st' c h; simp [genLoop] at h
  | succ fuel ih =>
      intro st url st' c h
      cases hfind : find_by_short st (id_to_base62 (scramble_id (st.global_id % MODULUS))) with
      | none =>
          rw [genLoop, hfind] at h
          simp only [Option.some.injEq, Prod.mk.injEq] at h
          obtain ⟨hst, hc⟩ := h
          subst hc
          refine ⟨0, by omega, rfl, fun j hj => absurd hj (Nat.not_lt_zero j), hfind, ?_⟩
          subst hst
          rfl
      | some r =>
          rw [genLoop, hfind] at h
          obtain ⟨k, hk, hc, hprev, hfindc, hst'⟩ := ih h
          refine ⟨k + 1, by omega, hc.trans (nthCandidate_shift st.global_id k), ?_, hfindc, ?_⟩
          · intro j hj
            cases j with
            | zero =>
                intro hnone
                have heq : find_by_short st
                    (id_to_base62 (scramble_id (st.global_id % MODULUS))) = none := hnone
                rw [hfind] at heq
                exact Option.noConfusion heq
            | succ j' =>
                have hj' : j' < k := by omega
                have hp := hprev j' hj'
                rw [← nthCandidate_shift st.global_id j']
                exact hp
          · rw [hst']
            refine Store.ext ?_ ?_ ?_
            · rfl
            · rfl
            · show ((st.global_id + 1) % UINT64_CARD + k + 1) % UINT64_CARD
                = (st.global_id + (k + 1) + 1) % UINT64_CARD
              rw [Nat.add_assoc ((st.global_id + 1) % UINT64_CARD) k 1, Nat.mod_add_mod]
              congr 1
              omega

lemma genLoop_succeeds : ∀ (fuel : Nat) (st : Store) (url : String),
    (∃ k, k < fuel ∧ find_by_short st (nthCandidate st.global_id k) = none) →
    ∃ st' c, genLoop fuel st url = some (st', c) ∧ find_by_short st c = none := by
  intro fuel
  induction fuel with
  | zero =>
      rintro st url ⟨k, hk, _⟩
      exact absurd hk (Nat.not_lt_zero k)
  | succ fuel ih =>
      rintro st url ⟨k, hk, hfree⟩
      cases hfind : find_by_short st (id_to_base62 (scramble_id (st.global_id % MODULUS))) with
      | none =>
          refine ⟨{ insert_mapping st (id_to_base62 (scramble_id (st.global_id % MODULUS))) url with
                    global_id := (st.global_id + 1) % UINT64_CARD },
                  id_to_base62 (scramble_id (st.global_id % MODULUS)), ?_, hfind⟩
          rw [genLoop, hfind]
      | some r =>
          have hkpos : k ≠ 0 := by
            rintro rfl
            have heq : find_by_short st
                (id_to_base62 (scramble_id (st.global_id % MODULUS))) = none := hfree
            rw [hfind] at heq
            exact Option.noConfusion heq
          obtain ⟨j, rfl⟩ : ∃ j, k = j + 1 := ⟨k - 1, by omega⟩
          have hfree' : find_by_short { st with global_id := (st.global_id + 1) % UINT64_CARD }
              (nthCandidate ((st.global_id + 1) % UINT64_CARD) j) = none := by
            rw [nthCandidate_shift]
            exact hfree
          obtain ⟨st', c, hloop, hfc⟩ :=
            ih { st with global_id := (st.global_id + 1) % UINT64_CARD } url
              ⟨j, by omega, hfree'⟩
          refine ⟨st', c, ?_, hfc⟩
          rw [genLoop, hfind]
          exact hloop

lemma genLoop_of_occupied : ∀ (fuel : Nat) (st : Store) (url : String),
    (∀ g : Nat, find_by_short st (id_to_base62 (scramble_id (g % MODULUS))) ≠ none) →
    genLoop fuel st url = none := by
  intro fuel
  induction fuel with
  | zero => intro st url _; rfl
  | succ fuel ih =>
      intro st url h
      cases hfind : find_by_short st (id_to_base62 (scramble_id (st.global_id % MODULUS))) with
      | none => exact absurd hfind (h st.global_id)
      | some r =>
          rw [genLoop, hfind]
          exact ih { st with global_id := (st.global_id + 1) % UINT64_CARD } url
            (fun g => h g)

lemma fullStore_occupied (x : Nat) :
    find_by_short fullStore (id_to_base62 (scramble_id (x % MODULUS))) ≠ none := by
  intro hnone
  unfold find_by_short at hnone
  simp only [fullStore] at hnone
  have hmem : (⟨id_to_base62 (scramble_id (x % MODULUS)), urlA⟩ : Rec) ∈ allCodes := by
    unfold allCodes
    exact List.mem_map.mpr ⟨x % MODULUS, List.mem_range.mpr (Nat.mod_lt _ MODULUS_pos), rfl⟩
  have := List.find?_eq_none.mp hnone _ hmem
  simp at this

/-! ### Reachability implies the invariant -/

lemma reachable_inv {st : Store} (h : Reachable st) : Inv st := by
  induction h with
  | empty => exact inv_empty
  | gen st st' fuel url code hr heq ih =>
      cases hfl : find_by_long st url with
      | some ex =>
          simp only [generate_short_url, hfl, Option.some.injEq, Prod.mk.injEq] at heq
          exact heq.1 ▸ ih
      | none =>
          simp only [generate_short_url, hfl] at heq
          obtain ⟨k, hk, hc, hprev, hfindc, hst'⟩ := genLoop_spec heq
          subst hst'
          exact inv_insert ih hfindc hfl (by rw [hc]; exact nthCandidate_good _ _)
  | delS st code hr ih =>
      cases hfind : find_by_short st code with
      | none =>
          simp only [remove_by_short, hfind]
          exact ih
      | some node =>
          have hmem : memShort st node := ⟨_, (find_by_short_some hfind).1⟩
          simp only [remove_by_short, hfind]
          exact (inv_remove ih hmem).1
  | delL st url hr ih =>
      cases hfind : find_by_long st url with
      | none =>
          simp only [remove_by_long, hfind]
          exact ih
      | some node =>
          have hmemL : memLong st node := ⟨_, (find_by_long_some hfind).1⟩
          have hmem : memShort st node := (ih.same node).mpr hmemL
          simp only [remove_by_long, hfind]
          exact (inv_remove ih hmem).1

/-! ### Helper lemmas for the freshly inserted record -/

lemma find_insert_short {st : Store} {c u : String} {g : Nat} :
    find_by_short { short_table := bucket_insert st.short_table (hash_str c) ⟨c, u⟩
                    long_table := bucket_insert st.long_table (hash_str u) ⟨c, u⟩
                    global_id := g } c = some ⟨c, u⟩ := by
  unfold find_by_short
  simp [bucket_insert]

lemma find_insert_long {st : Store} {c u : String} {g : Nat} :
    find_by_long { short_table := bucket_insert st.short_table (hash_str c) ⟨c, u⟩
                   long_table := bucket_insert st.long_table (hash_str u) ⟨c, u⟩
                   global_id := g } u = some ⟨c, u⟩ := by
  unfold find_by_long
  simp [bucket_insert]

lemma memShort_insert_self {st : Store} {c u : String} {g : Nat} :
    memShort { short_table := bucket_insert st.short_table (hash_str c) ⟨c, u⟩
               long_table := bucket_insert st.long_table (hash_str u) ⟨c, u⟩
               global_id := g } ⟨c, u⟩ :=
  mem_bucket_insert.mpr (Or.inl rfl)

lemma strncpyTrunc_of_le {s : String} {n : Nat} (h : s.length ≤ n) :
    strncpyTrunc s n = s := by
  unfold strncpyTrunc
  have hlen : s.toList.length ≤ n := h
  rw [List.take_of_length_le hlen]
  cases s
  rfl

/-! ### The claims -/

/-- C1: for every valid `long_url` and a sufficiently large output buffer,
`retrieve_original` applied to the code returned by
`generate_short_url long_url` succeeds and yields `long_url` itself. -/
theorem C1_round_trip (st st' : Store) (fuel : Nat) (long_url code : String)
    (out_size : Nat) (hreach : Reachable st) (hvalid : ValidUrl long_url)
    (hgen : generate_short_url fuel st long_url = some (st', code))
    (hout : long_url.length < out_size) :
    retrieve_original st' code out_size = some long_url := by
  have hInv := reachable_inv hreach
  cases hfl : find_by_long st long_url with
  | some node =>
      simp only [generate_short_url, hfl, Option.some.injEq, Prod.mk.injEq] at hgen
      obtain ⟨hst, hcode⟩ := hgen
      subst hst
      subst hcode
      have hn := find_by_long_some hfl
      have hmemS : memShort st node := (hInv.same node).mpr ⟨_, hn.1⟩
      have hfind := find_by_short_of_mem hInv hmemS
      simp only [retrieve_original, hfind]
      rw [hn.2, strncpyTrunc_of_le (by omega)]
  | none =>
      simp only [generate_short_url, hfl] at hgen
      obtain ⟨k, hk, hc, hprev, hfindc, hst'⟩ := genLoop_spec hgen
      subst hst'
      simp only [retrieve_original, find_insert_short]
      rw [strncpyTrunc_of_le (by omega)]

/-- C1 witness: a concrete round trip from the initial state. -/
theorem C1_round_trip_witness :
    retrieve_original stA codeA 1024 = some urlA :=
  C1_round_trip emptyStore stA 1 urlA codeA 1024 Reachable.empty (by decide) rfl
    (by decide)

/-- C2: shortening the same valid `long_url` twice returns the same code
both times, the second call changes nothing, across both calls at most one
record is added, and an already-mapped URL gets its existing code back. -/
theorem C2_idempotent (st st1 st2 : Store) (fuel1 fuel2 : Nat)
    (long_url c1 c2 : String) (hreach : Reachable st) (hvalid : ValidUrl long_url)
    (h1 : generate_short_url fuel1 st long_url = some (st1, c1))
    (h2 : generate_short_url fuel2 st1 long_url = some (st2, c2)) :
    c2 = c1 ∧ st2 = st1 ∧
    (∀ r, memShort st1 r → memShort st r ∨ r = ⟨c1, long_url⟩) ∧
    (∀ node, find_by_long st long_url = some node → c1 = node.short_code) := by
  cases hfl : find_by_long st long_url with
  | some node =>
      simp only [generate_short_url, hfl, Option.some.injEq, Prod.mk.injEq] at h1
      obtain ⟨hst, hcode⟩ := h1
      subst hst
      simp only [generate_short_url, hfl, Option.some.injEq, Prod.mk.injEq] at h2
      obtain ⟨hst2, hcode2⟩ := h2
      refine ⟨hcode2.symm.trans hcode, hst2.symm, fun r hr => Or.inl hr, ?_⟩
      intro nd hnd
      injection hnd with hnd
      rw [← hnd]
      exact hcode.symm
  | none =>
      simp only [generate_short_url, hfl] at h1
      obtain ⟨k, hk, hc, hprev, hfindc, hst'⟩ := genLoop_spec h1
      subst hst'
      simp only [generate_short_url, find_insert_long, Option.some.injEq,
        Prod.mk.injEq] at h2
      obtain ⟨hst2, hcode2⟩ := h2
      refine ⟨hcode2.symm, hst2.symm, ?_, ?_⟩
      · intro r hr
        rcases mem_bucket_insert.mp hr with rfl | hr'
        · exact Or.inr rfl
        · exact Or.inl hr'
      · intro nd hnd
        exact Option.noConfusion hnd

/-- C2 witness: a concrete double shortening from the initial state. -/
theorem C2_idempotent_witness :
    genCode 1 stA urlA = codeA ∧ genStore 1 stA urlA = stA ∧
    (∀ r, memShort stA r → memShort emptyStore r ∨ r = ⟨codeA, urlA⟩) ∧
    (∀ node, find_by_long emptyStore urlA = some node → codeA = node.short_code) :=
  C2_idempotent emptyStore stA (genStore 1 stA urlA) 1 1 urlA codeA
    (genCode 1 stA urlA) Reachable.empty (by decide) rfl rfl

/-- C3: in every state reachable from the empty store by
`generate_short_url`, `remove_by_short` and `remove_by_long`, the records
reachable through the short index are exactly the records reachable
through the long index. -/
theorem C3_dual_index {st : Store} (hreach : Reachable st) :
    ∀ r, memShort st r ↔ memLong st r :=
  fun r => (reachable_inv hreach).same r

/-- C3 witness: the property evaluated at a concrete reachable state and
record. -/
theorem C3_dual_index_witness :
    memShort stA ⟨codeA, urlA⟩ ↔ memLong stA ⟨codeA, urlA⟩ :=
  C3_dual_index (Reachable.gen emptyStore stA 1 urlA codeA Reachable.empty rfl)
    ⟨codeA, urlA⟩

/-- C4: in every reachable state short codes determine the record
(pairwise distinct codes), and consequently shortening two distinct URLs
in sequence yields distinct codes. -/
theorem C4_uniqueness :
    (∀ st, Reachable st → ∀ r1 r2, memShort st r1 → memShort st r2 →
        r1.short_code = r2.short_code → r1 = r2) ∧
    (∀ st st1 st2 fuel1 fuel2, ∀ u1 u2 c1 c2 : String, Reachable st → u1 ≠ u2 →
        generate_short_url fuel1 st u1 = some (st1, c1) →
        generate_short_url fuel2 st1 u2 = some (st2, c2) → c1 ≠ c2) := by
  constructor
  · intro st hreach r1 r2 h1 h2 heq
    exact (reachable_inv hreach).codes_inj r1 r2 h1 h2 heq
  · intro st st1 st2 fuel1 fuel2 u1 u2 c1 c2 hreach hne h1 h2
    have hInv := reachable_inv hreach
    have hreach1 : Reachable st1 := Reachable.gen st st1 fuel1 u1 c1 hreach h1
    have hInv1 := reachable_inv hreach1
    have hr1 : ∃ r1 : Rec, memShort st1 r1 ∧ r1.short_code = c1 ∧ r1.long_url = u1 := by
      cases hfl : find_by_long st u1 with
      | some node =>
          simp only [generate_short_url, hfl, Option.some.injEq, Prod.mk.injEq] at h1
          obtain ⟨hst, hcode⟩ := h1
          subst hst
          have hn := find_by_long_some hfl
          exact ⟨node, (hInv.same node).mpr ⟨_, hn.1⟩, hcode, hn.2⟩
      | none =>
          simp only [generate_short_url, hfl] at h1
          obtain ⟨k, hk, hc, hprev, hfindc, hst'⟩ := genLoop_spec h1
          subst hst'
          exact ⟨⟨c1, u1⟩, memShort_insert_self, rfl, rfl⟩
    obtain ⟨r1, hr1mem, hr1code, hr1url⟩ := hr1
    intro hcc
    cases hfl2 : find_by_long st1 u2 with
    | some node2 =>
        simp only [generate_short_url, hfl2, Option.some.injEq, Prod.mk.injEq] at h2
        obtain ⟨hst2, hcode2⟩ := h2
        have hn2 := find_by_long_some hfl2
        have hmem2 : memShort st1 node2 := (hInv1.same node2).mpr ⟨_, hn2.1⟩
        have hsame : node2 = r1 :=
          hInv1.codes_inj node2 r1 hmem2 hr1mem (by rw [hcode2, ← hcc, hr1code])
        apply hne
        rw [← hr1url, ← hsame, hn2.2]
    | none =>
        simp only [generate_short_url, hfl2] at h2
        obtain ⟨k, hk, hc, hprev, hfindc, hst'⟩ := genLoop_spec h2
        have := memShort_find_none hInv1.wf_short hfindc hr1mem
        exact this (hr1code.trans hcc)

/-- C4 witness: shortening the two concrete distinct URLs in sequence
yields distinct codes. -/
theorem C4_uniqueness_witness :
    codeA ≠ genCode 1 stA urlB :=
  C4_uniqueness.2 emptyStore stA (genStore 1 stA urlB) 1 1 urlA urlB codeA
    (genCode 1 stA urlB) Reachable.empty (by decide) rfl rfl

/-- C5: if the live records number fewer than `MODULUS`, the retry loop
terminates (fuel `MODULUS` suffices) and returns a code not previously in
the short index; moreover the scramble step is a bijection on
`[0, MODULUS)` and the fixed odd multiplier is coprime to the modulus. -/
theorem C5_generator_termination (st : Store) (long_url : String) (l : List Rec)
    (hlist : ∀ r, memShort st r ↔ r ∈ l) (hcard : l.length < MODULUS) :
    (∃ st' c, genLoop MODULUS st long_url = some (st', c) ∧
        find_by_short st c = none) ∧
    Set.BijOn scramble_id (Set.Iio MODULUS) (Set.Iio MODULUS) ∧
    Nat.Coprime PRIME_MULTIPLIER MODULUS := by
  refine ⟨?_, ⟨?_, ?_, ?_⟩, coprime_mult⟩
  · have hfree : ∃ s, s < MODULUS ∧
        find_by_short st (id_to_base62 (scramble_id s)) = none := by
      by_contra hcon
      push_neg at hcon
      have hFmem : ∀ s ∈ Finset.range MODULUS,
          (find_by_short st (id_to_base62 (scramble_id s))).getD defaultRec
            ∈ l.toFinset := by
        intro s hs
        have hlt := Finset.mem_range.mp hs
        cases hfind : find_by_short st (id_to_base62 (scramble_id s)) with
        | none => exact absurd hfind (hcon s hlt)
        | some r =>
            have hmem : memShort st r := ⟨_, (find_by_short_some hfind).1⟩
            simp [List.mem_toFinset, (hlist r).mp hmem]
      have hFcode : ∀ s, s < MODULUS →
          ((find_by_short st (id_to_base62 (scramble_id s))).getD defaultRec).short_code
            = id_to_base62 (scramble_id s) := by
        intro s hlt
        cases hfind : find_by_short st (id_to_base62 (scramble_id s)) with
        | none => exact absurd hfind (hcon s hlt)
        | some r => simp [(find_by_short_some hfind).2]
      have hinj : Set.InjOn
          (fun s => (find_by_short st (id_to_base62 (scramble_id s))).getD defaultRec)
          (Finset.range MODULUS) := by
        intro s1 hs1 s2 hs2 heq
        simp only [Finset.coe_range, Set.mem_Iio] at hs1 hs2
        have h1 := hFcode s1 hs1
        have h2 := hFcode s2 hs2
        have henc : id_to_base62 (scramble_id s1) = id_to_base62 (scramble_id s2) := by
          rw [← h1, ← h2]
          exact congrArg Rec.short_code heq
        have hscr : scramble_id s1 = scramble_id s2 :=
          id_to_base62_inj (lt_trans (scramble_id_lt _) MODULUS_lt_base)
            (lt_trans (scramble_id_lt _) MODULUS_lt_base) henc
        exact scramble_inj hs1 hs2 hscr
      have hcardle := Finset.card_le_card_of_injOn _ hFmem hinj
      rw [Finset.card_range] at hcardle
      have htl := List.toFinset_card_le l
      omega
    obtain ⟨s, hslt, hsfree⟩ := hfree
    have hg' : st.global_id % MODULUS < MODULUS := Nat.mod_lt _ MODULUS_pos
    refine genLoop_succeeds MODULUS st long_url
      ⟨(s + MODULUS - st.global_id % MODULUS) % MODULUS,
        Nat.mod_lt _ MODULUS_pos, ?_⟩
    have hmod : (st.global_id +
        (s + MODULUS - st.global_id % MODULUS) % MODULUS) % MODULUS = s := by
      rw [← Nat.mod_add_mod, Nat.add_mod_mod,
        Nat.add_sub_cancel' (le_trans (Nat.le_of_lt hg') (Nat.le_add_left MODULUS s)),
        Nat.add_mod_right]
      exact Nat.mod_eq_of_lt hslt
    show find_by_short st (nthCandidate st.global_id _) = none
    unfold nthCandidate
    rw [hmod]
    exact hsfree
  · intro s hs
    simp only [Set.mem_Iio] at hs ⊢
    exact scramble_id_lt s
  · intro s1 hs1 s2 hs2 heq
    simp only [Set.mem_Iio] at hs1 hs2
    exact scramble_inj hs1 hs2 heq
  · intro t ht
    simp only [Set.mem_Iio] at ht
    obtain ⟨s, hs, heq⟩ := scramble_surj ht
    exact ⟨s, by simpa using hs, heq⟩

/-- C5 witness: the property instantiated at the empty store (with the
empty record listing). -/
theorem C5_generator_termination_witness :
    (∃ st' c, genLoop MODULUS emptyStore urlA = some (st', c) ∧
        find_by_short emptyStore c = none) ∧
    Set.BijOn scramble_id (Set.Iio MODULUS) (Set.Iio MODULUS) ∧
    Nat.Coprime PRIME_MULTIPLIER MODULUS :=
  C5_generator_termination emptyStore urlA []
    (by intro r; simp [memShort, emptyStore]) (by decide)

/-- C6 counterexample: in the exhausted store (every generator code
occupied) the retry loop of `generate_short_url` never returns, for any
number of iterations, so no bounded retry or explicit exhaustion error
exists in the code. -/
theorem C6_bounded_retry_counterexample :
    ¬ ∃ fuel : Nat, (genLoop fuel fullStore urlNew).isSome := by
  rintro ⟨fuel, hsome⟩
  rw [genLoop_of_occupied fuel fullStore urlNew fullStore_occupied] at hsome
  simp at hsome

/-- C6 (amended): `generate_short_url` performs no bounded-retry
exhaustion handling: whenever every candidate code is already occupied the
retry loop never returns (it yields `none` for every fuel bound), so
exhaustion is an infinite loop, not an error surfaced to the caller. -/
theorem C6_exhaustion_not_surfaced (fuel : Nat) (st : Store) (long_url : String)
    (hocc : ∀ g : Nat,
      find_by_short st (id_to_base62 (scramble_id (g % MODULUS))) ≠ none) :
    genLoop fuel st long_url = none :=
  genLoop_of_occupied fuel st long_url hocc

/-- C6 witness: the amended statement evaluated in the exhausted store. -/
theorem C6_exhaustion_not_surfaced_witness :
    genLoop 5 fullStore urlNew = none :=
  C6_exhaustion_not_surfaced 5 fullStore urlNew fullStore_occupied

/-- C7: every short code returned by `generate_short_url` has length
exactly 7 and consists only of base-62 alphabet characters, and every
scrambled value is strictly below `62 ^ 7`. -/
theorem C7_fixed_width (st st' : Store) (fuel : Nat) (long_url code : String)
    (hreach : Reachable st)
    (hgen : generate_short_url fuel st long_url = some (st', code)) :
    code.length = SHORT_CODE_LEN ∧ (∀ c ∈ code.toList, c ∈ BASE62) ∧
    (∀ id : Nat, scramble_id id < 62 ^ SHORT_CODE_LEN) := by
  have hInv := reachable_inv hreach
  have hgood : GoodCode code := by
    cases hfl : find_by_long st long_url with
    | some node =>
        simp only [generate_short_url, hfl, Option.some.injEq, Prod.mk.injEq] at hgen
        obtain ⟨hst, hcode⟩ := hgen
        have hn := find_by_long_some hfl
        exact hcode ▸ hInv.good node ((hInv.same node).mpr ⟨_, hn.1⟩)
    | none =>
        simp only [generate_short_url, hfl] at hgen
        obtain ⟨k, hk, hc, hprev, hfindc, hst'⟩ := genLoop_spec hgen
        rw [hc]
        exact nthCandidate_good _ _
  exact ⟨hgood.1, hgood.2, fun id => lt_trans (scramble_id_lt id) MODULUS_lt_base⟩

/-- C7 witness: the concrete first code generated from the initial state. -/
theorem C7_fixed_width_witness :
    codeA.length = SHORT_CODE_LEN ∧ (∀ c ∈ codeA.toList, c ∈ BASE62) ∧
    (∀ id : Nat, scramble_id id < 62 ^ SHORT_CODE_LEN) :=
  C7_fixed_width emptyStore stA 1 urlA codeA Reachable.empty rfl

/-- C8: `delete_short code` succeeds exactly when a record with that code
is present; on success the record leaves both indexes, a subsequent
`retrieve_original` of that code reports not-found and a second delete
returns false; on a miss the call is a no-op. -/
theorem C8_delete_semantics (st : Store) (code : String) (hreach : Reachable st) :
    ((delete_short st code).2 = true ↔ ∃ r, memShort st r ∧ r.short_code = code) ∧
    ((delete_short st code).2 = true →
        (∀ n, retrieve_original (delete_short st code).1 code n = none) ∧
        (delete_short (delete_short st code).1 code).2 = false ∧
        (∀ r, memShort (delete_short st code).1 r ↔
            memShort st r ∧ r.short_code ≠ code) ∧
        (∀ r, memLong (delete_short st code).1 r ↔
            memLong st r ∧ r.short_code ≠ code)) ∧
    ((delete_short st code).2 = false → (delete_short st code).1 = st) := by
  have hInv := reachable_inv hreach
  cases hfind : find_by_short st code with
  | none =>
      have hd : delete_short st code = (st, false) := by
        unfold delete_short remove_by_short
        rw [hfind]
      rw [hd]
      refine ⟨⟨fun h => absurd h (by simp), ?_⟩, fun h => absurd h (by simp),
        fun _ => rfl⟩
      rintro ⟨r, hmem, hcode⟩
      exact absurd hcode (memShort_find_none hInv.wf_short hfind hmem)
  | some node =>
      have hns := find_by_short_some hfind
      have hmem : memShort st node := ⟨_, hns.1⟩
      obtain ⟨hInv', hS, hL⟩ := inv_remove hInv hmem
      set D : Store := { st with
          short_table := unlink_from_short_table st.short_table node
          long_table := unlink_from_long_table st.long_table node } with hD
      have hd : delete_short st code = (D, true) := by
        unfold delete_short remove_by_short
        rw [hfind]
      have hfind' : find_by_short D code = none := by
        unfold find_by_short
        apply List.find?_eq_none.mpr
        intro x hx
        have hxmem : memShort D x := ⟨_, hx⟩
        obtain ⟨hxm, hxne⟩ := (hS x).mp hxmem
        intro hbeq
        have hxcode : x.short_code = code := by simpa using hbeq
        exact hxne (hInv.codes_inj x node hxm hmem (hxcode.trans hns.2.symm))
      have hd2 : delete_short D code = (D, false) := by
        unfold delete_short remove_by_short
        rw [hfind']
      rw [hd]
      refine ⟨⟨fun _ => ⟨node, hmem, hns.2⟩, fun _ => rfl⟩, ?_, ?_⟩
      · intro _
        refine ⟨?_, ?_, ?_, ?_⟩
        · intro n
          show retrieve_original D code n = none
          unfold retrieve_original
          rw [hfind']
        · show (delete_short D code).2 = false
          rw [hd2]
        · intro r
          show memShort D r ↔ memShort st r ∧ r.short_code ≠ code
          rw [hS r]
          constructor
          · rintro ⟨hm, hne⟩
            exact ⟨hm, fun hcode =>
              hne (hInv.codes_inj r node hm hmem (hcode.trans hns.2.symm))⟩
          · rintro ⟨hm, hne⟩
            exact ⟨hm, fun heqn => hne (by rw [heqn, hns.2])⟩
        · intro r
          show memLong D r ↔ memLong st r ∧ r.short_code ≠ code
          rw [hL r]
          constructor
          · rintro ⟨hm, hne⟩
            have hmS : memShort st r := (hInv.same r).mpr hm
            exact ⟨hm, fun hcode =>
              hne (hInv.codes_inj r node hmS hmem (hcode.trans hns.2.symm))⟩
          · rintro ⟨hm, hne⟩
            exact ⟨hm, fun heqn => hne (by rw [heqn, hns.2])⟩
      · intro h
        exact absurd h (by simp)

/-- C8 witness: the delete contract evaluated at the concrete one-record
store. -/
theorem C8_delete_semantics_witness :
    ((delete_short stA codeA).2 = true ↔
        ∃ r, memShort stA r ∧ r.short_code = codeA) ∧
    ((delete_short stA codeA).2 = true →
        (∀ n, retrieve_original (delete_short stA codeA).1 codeA n = none) ∧
        (delete_short (delete_short stA codeA).1 codeA).2 = false ∧
        (∀ r, memShort (delete_short stA codeA).1 r ↔
            memShort stA r ∧ r.short_code ≠ codeA) ∧
        (∀ r, memLong (delete_short stA codeA).1 r ↔
            memLong stA r ∧ r.short_code ≠ codeA)) ∧
    ((delete_short stA codeA).2 = false → (delete_short stA codeA).1 = stA) :=
  C8_delete_semantics stA codeA
    (Reachable.gen emptyStore stA 1 urlA codeA Reachable.empty rfl)

/-- C9 counterexample: a second `generate_short_url` call for an
already-mapped URL leaves the sequence counter unchanged, so not every
call advances the counter. -/
theorem C9_counter_advance_counterexample :
    ¬ (genStore 1 stA urlA).global_id > stA.global_id := by decide

/-- C9 (amended): the counter starts at 1; a call that hits an existing
long URL leaves the counter untouched, while a call that enters the
generation loop advances it by exactly one per candidate evaluated
(`k + 1` increments when `k` candidates collide first), modulo `2 ^ 64`. -/
theorem C9_counter_advance :
    emptyStore.global_id = 1 ∧
    (∀ (st st' : Store) (fuel : Nat) (long_url code : String) (node : Rec),
        find_by_long st long_url = some node →
        generate_short_url fuel st long_url = some (st', code) →
        st'.global_id = st.global_id) ∧
    (∀ (st st' : Store) (fuel : Nat) (long_url code : String),
        find_by_long st long_url = none →
        generate_short_url fuel st long_url = some (st', code) →
        ∃ k, k < fuel ∧
          st'.global_id = (st.global_id + k + 1) % UINT64_CARD ∧
          (∀ j, j < k → find_by_short st (nthCandidate st.global_id j) ≠ none) ∧
          find_by_short st (nthCandidate st.global_id k) = none) := by
  refine ⟨rfl, ?_, ?_⟩
  · intro st st' fuel long_url code node hfl hgen
    simp only [generate_short_url, hfl, Option.some.injEq, Prod.mk.injEq] at hgen
    rw [← hgen.1]
  · intro st st' fuel long_url code hfl hgen
    simp only [generate_short_url, hfl] at hgen
    obtain ⟨k, hk, hc, hprev, hfindc, hst'⟩ := genLoop_spec hgen
    refine ⟨k, hk, ?_, hprev, ?_⟩
    · rw [hst']
    · rw [← hc]
      exact hfindc

/-- C9 witness: the amended counter law evaluated on the first concrete
generation from the initial state. -/
theorem C9_counter_advance_witness :
    ∃ k, k < 1 ∧
      stA.global_id = (emptyStore.global_id + k + 1) % UINT64_CARD ∧
      (∀ j, j < k →
        find_by_short emptyStore (nthCandidate emptyStore.global_id j) ≠ none) ∧
      find_by_short emptyStore (nthCandidate emptyStore.global_id k) = none :=
  C9_counter_advance.2.2 emptyStore stA 1 urlA codeA rfl rfl

/-- C10: retrieving a stored record with buffer capacity `out_size ≥ 1`
succeeds and yields exactly the first `min (length, out_size - 1)`
characters of the stored URL (silent truncation, still success). -/
theorem C10_retrieve_truncation (st : Store) (r : Rec) (out_size : Nat)
    (hreach : Reachable st) (hmem : memShort st r) (hpos : 1 ≤ out_size) :
    retrieve_original st r.short_code out_size
      = some (String.mk (r.long_url.toList.take
          (min r.long_url.length (out_size - 1)))) := by
  have hInv := reachable_inv hreach
  have hfind := find_by_short_of_mem hInv hmem
  simp only [retrieve_original, hfind]
  unfold strncpyTrunc
  congr 2
  rcases Nat.le_total r.long_url.length (out_size - 1) with h | h
  · rw [Nat.min_eq_left h]
    have h1 : r.long_url.toList.length ≤ out_size - 1 := h
    have h2 : r.long_url.toList.length ≤ r.long_url.length := Nat.le_refl _
    rw [List.take_of_length_le h1, List.take_of_length_le h2]
  · rw [Nat.min_eq_right h]

/-- C10 witness: truncated retrieval from the concrete one-record store
with a 5-byte buffer. -/
theorem C10_retrieve_truncation_witness :
    retrieve_original stA (Rec.mk codeA urlA).short_code 5
      = some (String.mk ((Rec.mk codeA urlA).long_url.toList.take
          (min (Rec.mk codeA urlA).long_url.length (5 - 1)))) :=
  C10_retrieve_truncation stA ⟨codeA, urlA⟩ 5
    (Reachable.gen emptyStore stA 1 urlA codeA Reachable.empty rfl)
    ⟨hash_str codeA, List.mem_singleton_self _⟩
    (by decide)

end UrlShortner
